import Mathlib

/-!
Verification of the mosaic-image-generator core
(`generatePhotoMosaicByTile.py`, `generatePhotoMosaicCyclePhotos.py`).

The Python source is shallowly embedded: colors are natural-number RGB
triples, images are width/height plus a pixel function, the scipy KDTree
nearest-neighbour query is modelled by an exact argmin over squared
Euclidean distance, and the stateful cycling selector threads its
color-group map explicitly.
-/

set_option maxHeartbeats 1000000

namespace Mosaic

/-- An RGB color: a triple of channel values. -/
abbrev Color := Nat × Nat × Nat

/-- Squared Euclidean distance between two RGB colors, over ℤ. -/
def sqDist (a b : Color) : Int :=
  ((a.1 : Int) - b.1) ^ 2 + ((a.2.1 : Int) - b.2.1) ^ 2 + ((a.2.2 : Int) - b.2.2) ^ 2

/-- Index of the first minimiser of `f` among `cands`, starting from `best`. -/
def argminList (f : Nat → Int) : List Nat → Nat → Nat
  | [], best => best
  | i :: is, best => argminList f is (if f i < f best then i else best)

/-- Modelled from the spec: `scipy.spatial.KDTree.query(color, k=1)` (external
library) is an exact nearest-neighbour query over the indexed points; it
returns the index of a point at minimum Euclidean distance to the query.
Ties are resolved here to the smallest index; only minimality is relied on. -/
def kdQuery (pts : List Color) (q : Color) : Nat :=
  argminList (fun i => sqDist (pts.getD i (0, 0, 0)) q) (List.range pts.length) 0

theorem argminList_le (f : Nat → Int) (L : List Nat) (best : Nat) :
    f (argminList f L best) ≤ f best ∧ ∀ i ∈ L, f (argminList f L best) ≤ f i := by
  induction L generalizing best with
  | nil => exact ⟨le_refl _, by simp⟩
  | cons i is ih =>
    have h := ih (if f i < f best then i else best)
    constructor
    · refine le_trans h.1 ?_
      by_cases hc : f i < f best <;> simp [hc, le_of_lt]
    · intro j hj
      rcases List.mem_cons.mp hj with rfl | hj
      · refine le_trans h.1 ?_
        by_cases hc : f j < f best
        · simp [hc]
        · simpa [hc] using le_of_not_lt hc
      · exact h.2 j hj

theorem argminList_mem (f : Nat → Int) (L : List Nat) (best : Nat) :
    argminList f L best ∈ best :: L := by
  induction L generalizing best with
  | nil => simp [argminList]
  | cons i is ih =>
    have h := ih (if f i < f best then i else best)
    rcases List.mem_cons.mp h with h | h
    · by_cases hc : f i < f best
      · simp only [argminList, hc, if_true] at h ⊢
        simp [h]
      · simp only [argminList, hc, if_false] at h ⊢
        simp [h]
    · simp [argminList, List.mem_cons.mpr (Or.inr (List.mem_cons.mpr (Or.inr h)))]

theorem kdQuery_lt_length (pts : List Color) (q : Color) (h : pts ≠ []) :
    kdQuery pts q < pts.length := by
  have hm := argminList_mem (fun i => sqDist (pts.getD i (0, 0, 0)) q)
    (List.range pts.length) 0
  rcases List.mem_cons.mp hm with h0 | h0
  · rw [kdQuery, h0]
    exact List.length_pos.mpr h
  · exact (List.mem_range.mp h0)

theorem kdQuery_min (pts : List Color) (q : Color) (j : Nat) (hj : j < pts.length) :
    sqDist (pts.getD (kdQuery pts q) (0, 0, 0)) q ≤ sqDist (pts.getD j (0, 0, 0)) q := by
  have h := (argminList_le (fun i => sqDist (pts.getD i (0, 0, 0)) q)
    (List.range pts.length) 0).2 j (List.mem_range.mpr hj)
  exact h

/-- C5: the nearest-color query returns a valid index whose color is at minimum
Euclidean (equivalently, minimum squared) distance to the query point: no other
indexed color is strictly closer. -/
theorem nearest_color_query_minimal (pts : List Color) (q : Color) (h : pts ≠ []) :
    kdQuery pts q < pts.length ∧
      ∀ j < pts.length,
        sqDist (pts.getD (kdQuery pts q) (0, 0, 0)) q ≤ sqDist (pts.getD j (0, 0, 0)) q :=
  ⟨kdQuery_lt_length pts q h, fun j hj => kdQuery_min pts q j hj⟩

theorem nearest_color_query_minimal_witness :
    ([(0, 0, 0), (10, 0, 0), (3, 3, 3)] : List Color) ≠ [] ∧
      (kdQuery [(0, 0, 0), (10, 0, 0), (3, 3, 3)] (4, 4, 4) <
          ([(0, 0, 0), (10, 0, 0), (3, 3, 3)] : List Color).length ∧
        ∀ j < ([(0, 0, 0), (10, 0, 0), (3, 3, 3)] : List Color).length,
          sqDist (([(0, 0, 0), (10, 0, 0), (3, 3, 3)] : List Color).getD
              (kdQuery [(0, 0, 0), (10, 0, 0), (3, 3, 3)] (4, 4, 4)) (0, 0, 0)) (4, 4, 4) ≤
            sqDist (([(0, 0, 0), (10, 0, 0), (3, 3, 3)] : List Color).getD j (0, 0, 0))
              (4, 4, 4)) :=
  ⟨by decide, nearest_color_query_minimal [(0, 0, 0), (10, 0, 0), (3, 3, 3)] (4, 4, 4)
    (by decide)⟩

/-- Python `int(q)` on a real value: truncation toward zero. -/
def pyInt (q : ℚ) : ℤ := if q < 0 then -⌊-q⌋ else ⌊q⌋

/-- Grid dimension computed by `generate_mosaic`:
`max(1, int(base / tile * grid_resolution_factor))`, with Python float
arithmetic modelled exactly over ℚ. -/
def gridDim (base tile : ℕ) (factor : ℚ) : ℤ :=
  max 1 (pyInt ((base : ℚ) / (tile : ℚ) * factor))

/-- Stated from the spec's words, for refinement against `gridDim`:
`max(1, floor(base / tile * resolution_factor))`. -/
def gridDimSpec (base tile : ℕ) (factor : ℚ) : ℤ :=
  max 1 ⌊(base : ℚ) / (tile : ℚ) * factor⌋

theorem pyInt_eq_floor_of_nonneg (q : ℚ) (h : 0 ≤ q) : pyInt q = ⌊q⌋ := by
  simp [pyInt, not_lt.mpr h]

theorem gridDim_eq_spec (base tile : ℕ) (factor : ℚ) :
    gridDim base tile factor = gridDimSpec base tile factor := by
  unfold gridDim gridDimSpec
  set q : ℚ := (base : ℚ) / (tile : ℚ) * factor with hq
  by_cases h : q < 0
  · have h1 : pyInt q ≤ 0 := by
      have : (0 : ℚ) ≤ -q := by linarith
      have hf : 0 ≤ ⌊-q⌋ := Int.floor_nonneg.mpr this
      simp [pyInt, h]
      omega
    have h2 : ⌊q⌋ ≤ 0 := by
      have := Int.floor_le_floor (α := ℚ) (le_of_lt h)
      simpa using this.trans (le_of_eq Int.floor_zero)
    omega
  · rw [pyInt_eq_floor_of_nonneg q (not_lt.mp h)]

/-- C2: the computed grid dimensions equal
`max(1, floor(base / tile * resolution_factor))` in each axis, are always at
least 1, and the spec's numeric examples hold: base 500×300 with 50×50 tiles
gives a 10×6 grid at factor 1.0 and a 20×12 grid at factor 2.0, and a 50×50
base at factor 0.1 gives a 1×1 grid. -/
theorem grid_dims_formula (bw bh tw th : ℕ) (factor : ℚ) (htw : 0 < tw) (hth : 0 < th) :
    (gridDim bw tw factor = max 1 ⌊(bw : ℚ) / (tw : ℚ) * factor⌋ ∧
       gridDim bh th factor = max 1 ⌊(bh : ℚ) / (th : ℚ) * factor⌋) ∧
      (1 ≤ gridDim bw tw factor ∧ 1 ≤ gridDim bh th factor) ∧
      gridDim 500 50 1 = 10 ∧ gridDim 300 50 1 = 6 ∧
      gridDim 500 50 2 = 20 ∧ gridDim 300 50 2 = 12 ∧
      gridDim 50 50 (1 / 10) = 1 ∧ gridDim 50 50 (1 / 10) = 1 := by
  refine ⟨⟨gridDim_eq_spec bw tw factor, gridDim_eq_spec bh th factor⟩,
    ⟨le_max_left 1 _, le_max_left 1 _⟩, ?_, ?_, ?_, ?_, ?_, ?_⟩ <;>
    norm_num [gridDim, pyInt]

theorem grid_dims_formula_witness :
    0 < 50 ∧
      ((gridDim 500 50 1 = max 1 ⌊(500 : ℚ) / (50 : ℚ) * 1⌋ ∧
          gridDim 300 50 1 = max 1 ⌊(300 : ℚ) / (50 : ℚ) * 1⌋) ∧
        (1 ≤ gridDim 500 50 1 ∧ 1 ≤ gridDim 300 50 1) ∧
        gridDim 500 50 1 = 10 ∧ gridDim 300 50 1 = 6 ∧
        gridDim 500 50 2 = 20 ∧ gridDim 300 50 2 = 12 ∧
        gridDim 50 50 (1 / 10) = 1 ∧ gridDim 50 50 (1 / 10) = 1) :=
  ⟨by decide, grid_dims_formula 500 300 50 50 1 (by decide) (by decide)⟩

/-- An RGB raster image: dimensions plus a pixel function. -/
structure Img where
  width : Nat
  height : Nat
  px : Nat → Nat → Color

/-- Default image used for total list lookups. -/
def dImg : Img := ⟨0, 0, fun _ _ => (0, 0, 0)⟩

/-- Row-major list of all pixels of an image (the flattened numpy array). -/
def Img.pixList (img : Img) : List Color :=
  (List.range img.height).bind fun y => (List.range img.width).map fun x => img.px x y

/-- Per-channel pixel sums of an image. -/
def sumR (l : List Color) : Nat := (l.map fun c => c.1).sum

def sumG (l : List Color) : Nat := (l.map fun c => c.2.1).sum

def sumB (l : List Color) : Nat := (l.map fun c => c.2.2).sum

/-- `get_average_rgb`: per-channel mean over all pixels of the RGB image,
truncated to an integer (`np.mean` followed by `astype(int)`; channel values
are non-negative, so truncation is floor, i.e. natural division). -/
def get_average_rgb (img : Img) : Color :=
  let n := img.width * img.height
  (sumR img.pixList / n, sumG img.pixList / n, sumB img.pixList / n)

theorem pixList_length (img : Img) : img.pixList.length = img.width * img.height := by
  simp [Img.pixList, List.length_flatMap, Function.comp_def, mul_comm]

theorem pixList_mem (img : Img) (c : Color) (hc : c ∈ img.pixList) :
    ∃ x y, x < img.width ∧ y < img.height ∧ img.px x y = c := by
  simp only [Img.pixList, List.mem_bind, List.mem_map, List.mem_range] at hc
  obtain ⟨y, hy, x, hx, hpx⟩ := hc
  exact ⟨x, y, hx, hy, hpx⟩

theorem floor_div_nat_eq (s n : ℕ) (hn : 0 < n) :
    ⌊(s : ℚ) / (n : ℚ)⌋ = (s / n : ℕ) := by
  have hnq : (0 : ℚ) < (n : ℚ) := by exact_mod_cast hn
  rw [Int.floor_eq_iff]
  constructor
  · rw [le_div_iff₀ hnq]
    push_cast
    exact_mod_cast Nat.div_mul_le_self s n
  · rw [div_lt_iff₀ hnq]
    have h3 : s < (s / n + 1) * n := (Nat.div_lt_iff_lt_mul hn).mp (Nat.lt_succ_self _)
    exact_mod_cast h3

/-- C6: for a non-empty image, `get_average_rgb` returns each channel's
arithmetic mean truncated to an integer (the floor of the rational mean), and
for a solid-color image it returns exactly that color. -/
theorem average_color_mean_and_solid (img : Img)
    (hpos : 0 < img.width * img.height) :
    (((get_average_rgb img).1 : ℤ) = ⌊(sumR img.pixList : ℚ) / (img.width * img.height : ℚ)⌋ ∧
       ((get_average_rgb img).2.1 : ℤ) =
         ⌊(sumG img.pixList : ℚ) / (img.width * img.height : ℚ)⌋ ∧
       ((get_average_rgb img).2.2 : ℤ) =
         ⌊(sumB img.pixList : ℚ) / (img.width * img.height : ℚ)⌋) ∧
      ∀ c : Color, (∀ x y, x < img.width → y < img.height → img.px x y = c) →
        get_average_rgb img = c := by
  have hcast : ((img.width : ℚ) * (img.height : ℚ)) = ((img.width * img.height : ℕ) : ℚ) := by
    push_cast
    ring
  constructor
  · refine ⟨?_, ?_, ?_⟩ <;>
      · rw [hcast, floor_div_nat_eq _ _ hpos]
        simp [get_average_rgb]
  · intro c hc
    have hall : ∀ d ∈ img.pixList, d = c := by
      intro d hd
      obtain ⟨x, y, hx, hy, hpx⟩ := pixList_mem img d hd
      rw [← hpx, hc x y hx hy]
    have hR : sumR img.pixList = img.width * img.height * c.1 := by
      have : ∀ v ∈ img.pixList.map (fun d => d.1), v = c.1 := by
        intro v hv
        obtain ⟨d, hd, rfl⟩ := List.mem_map.mp hv
        rw [hall d hd]
      rw [sumR, List.sum_eq_card_nsmul _ c.1 this]
      simp [pixList_length, mul_comm]
    have hG : sumG img.pixList = img.width * img.height * c.2.1 := by
      have : ∀ v ∈ img.pixList.map (fun d => d.2.1), v = c.2.1 := by
        intro v hv
        obtain ⟨d, hd, rfl⟩ := List.mem_map.mp hv
        rw [hall d hd]
      rw [sumG, List.sum_eq_card_nsmul _ c.2.1 this]
      simp [pixList_length, mul_comm]
    have hB : sumB img.pixList = img.width * img.height * c.2.2 := by
      have : ∀ v ∈ img.pixList.map (fun d => d.2.2), v = c.2.2 := by
        intro v hv
        obtain ⟨d, hd, rfl⟩ := List.mem_map.mp hv
        rw [hall d hd]
      rw [sumB, List.sum_eq_card_nsmul _ c.2.2 this]
      simp [pixList_length, mul_comm]
    simp only [get_average_rgb, hR, hG, hB]
    rw [Nat.mul_div_cancel_left _ hpos, Nat.mul_div_cancel_left _ hpos,
      Nat.mul_div_cancel_left _ hpos]

/-- A concrete 2×2 solid-color test image. -/
def solidImg : Img := ⟨2, 2, fun _ _ => (7, 8, 9)⟩

theorem average_color_mean_and_solid_witness :
    0 < solidImg.width * solidImg.height ∧
      ((((get_average_rgb solidImg).1 : ℤ) =
            ⌊(sumR solidImg.pixList : ℚ) / (solidImg.width * solidImg.height : ℚ)⌋ ∧
          ((get_average_rgb solidImg).2.1 : ℤ) =
            ⌊(sumG solidImg.pixList : ℚ) / (solidImg.width * solidImg.height : ℚ)⌋ ∧
          ((get_average_rgb solidImg).2.2 : ℤ) =
            ⌊(sumB solidImg.pixList : ℚ) / (solidImg.width * solidImg.height : ℚ)⌋) ∧
        ∀ c : Color, (∀ x y, x < solidImg.width → y < solidImg.height → solidImg.px x y = c) →
          get_average_rgb solidImg = c) :=
  ⟨by decide, average_color_mean_and_solid solidImg (by decide)⟩

/-- One color group of the cycling script: the `indices` list of tile
positions sharing one average color and the rotation cursor `next_idx`. -/
structure CycleGroup where
  indices : List Nat
  nextIdx : Nat
deriving DecidableEq

/-- Lines 184-191 of `generatePhotoMosaicCyclePhotos.py`: select the tile at
the group's cursor, then advance the cursor wrapping modulo the group size. -/
def groupSelect (g : CycleGroup) : Nat × CycleGroup :=
  (g.indices.getD g.nextIdx 0, ⟨g.indices, (g.nextIdx + 1) % g.indices.length⟩)

/-- `n` consecutive selections from one group, returning the selected tile
indices in order and the final group state. -/
def groupSelectN : CycleGroup → Nat → List Nat × CycleGroup
  | g, 0 => ([], g)
  | g, n + 1 =>
    let p := groupSelect g
    let q := groupSelectN p.2 n
    (p.1 :: q.1, q.2)

theorem groupSelectN_indices (g : CycleGroup) (n : Nat) :
    (groupSelectN g n).2.indices = g.indices := by
  induction n generalizing g with
  | zero => rfl
  | succ n ih => simpa [groupSelectN, groupSelect] using ih ⟨g.indices, _⟩

theorem groupSelectN_add (g : CycleGroup) (m n : Nat) :
    groupSelectN g (m + n) =
      ((groupSelectN g m).1 ++ (groupSelectN (groupSelectN g m).2 n).1,
        (groupSelectN (groupSelectN g m).2 n).2) := by
  induction m generalizing g with
  | zero => simp [groupSelectN]
  | succ m ih =>
    have : m + 1 + n = (m + n) + 1 := by omega
    rw [this]
    simp [groupSelectN, ih]

theorem groupSelectN_run (idxs : List Nat) (j n : Nat)
    (hj : j < idxs.length) (hjn : j + n ≤ idxs.length) :
    groupSelectN ⟨idxs, j⟩ n =
      ((idxs.drop j).take n, ⟨idxs, (j + n) % idxs.length⟩) := by
  induction n generalizing j with
  | zero =>
    simp [groupSelectN, Nat.mod_eq_of_lt hj]
  | succ n ih =>
    have hstep : groupSelect ⟨idxs, j⟩ = (idxs.getD j 0, ⟨idxs, (j + 1) % idxs.length⟩) := rfl
    have hdropj : idxs.drop j = idxs[j] :: idxs.drop (j + 1) := List.drop_eq_getElem_cons hj
    have hgetd : idxs.getD j 0 = idxs[j] := List.getD_eq_getElem idxs 0 hj
    by_cases hlt : j + 1 < idxs.length
    · have hmod : (j + 1) % idxs.length = j + 1 := Nat.mod_eq_of_lt hlt
      have ihn := ih (j + 1) hlt (by omega)
      have harith : j + 1 + n = j + (n + 1) := by omega
      simp only [groupSelectN, hstep, hmod, ihn, Prod.mk.injEq, hgetd, hdropj,
        List.take_succ_cons, harith]
    · have hlen : j + 1 = idxs.length := by omega
      have hn0 : n = 0 := by omega
      subst hn0
      have hmod : (j + 1) % idxs.length = 0 := by
        rw [hlen, Nat.mod_self]
      have hnil : idxs.drop (j + 1) = [] := List.drop_eq_nil_of_le (by omega)
      have harith : (j + (0 + 1)) % idxs.length = 0 := by
        rw [show j + (0 + 1) = j + 1 from by omega, hlen, Nat.mod_self]
      simp only [groupSelectN, hstep, hmod, Prod.mk.injEq, hgetd, hdropj, hnil,
        List.take_succ_cons, List.take_nil, harith]

theorem groupSelectN_full (idxs : List Nat) (j : Nat) (hj : j < idxs.length) :
    groupSelectN ⟨idxs, j⟩ idxs.length = (idxs.rotate j, ⟨idxs, j⟩) := by
  have hsplit : idxs.length = (idxs.length - j) + j := by omega
  rw [hsplit, groupSelectN_add]
  have h1 := groupSelectN_run idxs j (idxs.length - j) hj (by omega)
  have hd : (idxs.drop j).take (idxs.length - j) = idxs.drop j := by
    apply List.take_of_length_le
    simp
  have hmod0 : (j + (idxs.length - j)) % idxs.length = 0 := by
    have : j + (idxs.length - j) = idxs.length := by omega
    rw [this, Nat.mod_self]
  rw [h1, hd, hmod0]
  have h2 := groupSelectN_run idxs 0 j (by omega) (by omega)
  have hmodj : (0 + j) % idxs.length = j := by
    rw [Nat.zero_add, Nat.mod_eq_of_lt hj]
  rw [h2, hmodj]
  simp [List.rotate_eq_drop_append_take (le_of_lt hj)]

theorem groupSelectN_cursor (idxs : List Nat) (j i : Nat)
    (hj : j < idxs.length) (hi : i ≤ idxs.length) :
    (groupSelectN ⟨idxs, j⟩ i).2 = ⟨idxs, (j + i) % idxs.length⟩ := by
  by_cases hle : j + i ≤ idxs.length
  · exact congrArg Prod.snd (groupSelectN_run idxs j i hj hle) |>.trans rfl
  · have hsplit : i = (idxs.length - j) + (i - (idxs.length - j)) := by omega
    rw [hsplit, groupSelectN_add]
    have h1 := groupSelectN_run idxs j (idxs.length - j) hj (by omega)
    have hmod0 : (j + (idxs.length - j)) % idxs.length = 0 := by
      have : j + (idxs.length - j) = idxs.length := by omega
      rw [this, Nat.mod_self]
    rw [h1, hmod0]
    have h2 := groupSelectN_run idxs 0 (i - (idxs.length - j)) (by omega) (by omega)
    rw [h2]
    have : (0 + (i - (idxs.length - j))) % idxs.length = (j + i) % idxs.length := by
      have hlen : 0 < idxs.length := by omega
      have hlow : idxs.length ≤ j + i := by omega
      have hhigh : j + i < 2 * idxs.length := by omega
      rw [Nat.zero_add]
      have hr : (j + i) % idxs.length = j + i - idxs.length := by
        rw [Nat.mod_eq_sub_mod hlow, Nat.mod_eq_of_lt (by omega)]
      have hl : (i - (idxs.length - j)) % idxs.length = j + i - idxs.length := by
        have : i - (idxs.length - j) = j + i - idxs.length := by omega
        rw [this, Nat.mod_eq_of_lt (by omega)]
      rw [hl, hr]
    rw [this]
    simp [show idxs.length - j + (i - (idxs.length - j)) = i by omega]

/-- The `color_to_indices_map` of the cycling script: a Python dict in
insertion order, from an average color to its tile group. -/
abbrev CycleMap := List (Color × CycleGroup)

def mapLookup : CycleMap → Color → Option CycleGroup
  | [], _ => none
  | (k, g) :: rest, c => if k = c then some g else mapLookup rest c

def mapUpdate : CycleMap → Color → CycleGroup → CycleMap
  | [], _, _ => []
  | (k, g) :: rest, c, g' => if k = c then (k, g') :: rest else (k, g) :: mapUpdate rest c g'

/-- Tile index returned by the defensive fallback of the cycling
`find_best_match_tile` when the KDTree query raises: the first tile of the
first color group if it exists, otherwise the very first loaded tile. -/
def fallbackIdx (unique_colors_list : List Color) (m : CycleMap) : Nat :=
  match unique_colors_list with
  | [] => 0
  | k :: _ =>
    match mapLookup m k with
    | none => 0
    | some g =>
      match g.indices with
      | [] => 0
      | i :: _ => i

/-- Lines 134-194 of `generatePhotoMosaicCyclePhotos.py`. `queryRes` is the
outcome of the KDTree query inside the `try` block (`none` models a raised
exception); on success it carries the index of the matched unique color. The
function returns the selected tile's load index and the updated map, or the
`ValueError` message when the tile list is empty on the fallback path. -/
def find_best_match_tile (queryRes : Option Nat) (unique_colors_list : List Color)
    (numTiles : Nat) (m : CycleMap) : Except String (Nat × CycleMap) :=
  match queryRes with
  | none =>
    if numTiles = 0 then
      Except.error "Cannot find best match tile: Tile list is empty."
    else
      Except.ok (fallbackIdx unique_colors_list m, m)
  | some uidx =>
    let matched := unique_colors_list.getD uidx (0, 0, 0)
    match mapLookup m matched with
    | none => Except.ok (0, m)
    | some g =>
      if g.indices = [] then Except.ok (0, m)
      else
        let p := groupSelect g
        Except.ok (p.1, mapUpdate m matched p.2)

/-- `n` consecutive cycling selections for one fixed target color, as issued
by the assembly loop of `generate_mosaic` for `n` cells of that color. -/
def selectCycleN (target : Color) (uc : List Color) (numTiles : Nat) :
    CycleMap → Nat → List Nat × CycleMap
  | m, 0 => ([], m)
  | m, n + 1 =>
    match find_best_match_tile (some (kdQuery uc target)) uc numTiles m with
    | Except.error _ => ([], m)
    | Except.ok (t, m') =>
      let q := selectCycleN target uc numTiles m' n
      (t :: q.1, q.2)

theorem mapLookup_update_self (m : CycleMap) (c : Color) (g g' : CycleGroup)
    (h : mapLookup m c = some g) : mapLookup (mapUpdate m c g') c = some g' := by
  induction m with
  | nil => simp [mapLookup] at h
  | cons p rest ih =>
    obtain ⟨k, gk⟩ := p
    by_cases hk : k = c
    · simp [mapLookup, mapUpdate, hk]
    · simp only [mapLookup, mapUpdate, hk, if_false] at h ⊢
      exact ih h

theorem mapLookup_update_other (m : CycleMap) (c c' : Color) (g' : CycleGroup)
    (h : c' ≠ c) : mapLookup (mapUpdate m c g') c' = mapLookup m c' := by
  induction m with
  | nil => simp [mapUpdate]
  | cons p rest ih =>
    obtain ⟨k, gk⟩ := p
    by_cases hk : k = c
    · subst hk
      have hkc : k ≠ c' := fun hc => h hc.symm
      simp [mapLookup, mapUpdate, hkc]
    · simp only [mapLookup, mapUpdate, hk, if_false]
      by_cases hk2 : k = c'
      · simp [mapLookup, hk2]
      · simp [mapLookup, hk2, ih]

theorem find_best_match_tile_step (target col : Color) (uc : List Color)
    (numTiles : Nat) (m : CycleMap) (g : CycleGroup)
    (hres : uc.getD (kdQuery uc target) (0, 0, 0) = col)
    (hlook : mapLookup m col = some g) (hne : g.indices ≠ []) :
    find_best_match_tile (some (kdQuery uc target)) uc numTiles m =
      Except.ok ((groupSelect g).1, mapUpdate m col (groupSelect g).2) := by
  simp only [find_best_match_tile]
  rw [hres]
  simp [hlook, hne]

theorem selectCycleN_run (target col : Color) (uc : List Color) (numTiles : Nat)
    (hres : uc.getD (kdQuery uc target) (0, 0, 0) = col) (n : Nat) :
    ∀ (m : CycleMap) (g : CycleGroup), mapLookup m col = some g → g.indices ≠ [] →
      (selectCycleN target uc numTiles m n).1 = (groupSelectN g n).1 ∧
        mapLookup (selectCycleN target uc numTiles m n).2 col = some (groupSelectN g n).2 ∧
        ∀ c', c' ≠ col →
          mapLookup (selectCycleN target uc numTiles m n).2 c' = mapLookup m c' := by
  induction n with
  | zero => exact fun m g hl _ => ⟨rfl, by simpa [selectCycleN, groupSelectN] using hl, by
      intro c' _
      rfl⟩
  | succ n ih =>
    intro m g hl hne
    have hstep := find_best_match_tile_step target col uc numTiles m g hres hl hne
    have hl' : mapLookup (mapUpdate m col (groupSelect g).2) col = some (groupSelect g).2 :=
      mapLookup_update_self m col g (groupSelect g).2 hl
    have hne' : (groupSelect g).2.indices ≠ [] := by
      simpa [groupSelect] using hne
    have ihn := ih (mapUpdate m col (groupSelect g).2) (groupSelect g).2 hl' hne'
    refine ⟨?_, ?_, ?_⟩
    · simp only [selectCycleN, hstep]
      simp only [groupSelectN]
      exact congrArg _ ihn.1
    · simp only [selectCycleN, hstep]
      simpa [groupSelectN] using ihn.2.1
    · intro c' hc'
      simp only [selectCycleN, hstep]
      have h1 := ihn.2.2 c' hc'
      have h2 := mapLookup_update_other m col c' (groupSelect g).2 hc'
      simpa [h2] using h1

/-- C3: under the cycling policy, for a color group of size `k` reached with a
valid cursor, `k` consecutive selections resolving to that group return the
group's `k` tile indices each exactly once (when the group's indices are
distinct, as the grouping construction guarantees), in the fixed rotation
order `indices.rotate cursor`, leave every other group's state untouched,
restore the group's cursor, and after `i ≤ k` such selections the cursor has
advanced to `(cursor + i) mod k`. -/
theorem cycling_round_robin (target col : Color) (uc : List Color) (numTiles : Nat)
    (m : CycleMap) (g : CycleGroup)
    (hres : uc.getD (kdQuery uc target) (0, 0, 0) = col)
    (hlook : mapLookup m col = some g)
    (hcur : g.nextIdx < g.indices.length) :
    (selectCycleN target uc numTiles m g.indices.length).1 =
        g.indices.rotate g.nextIdx ∧
      (g.indices.Nodup → ∀ t ∈ g.indices,
        (selectCycleN target uc numTiles m g.indices.length).1.count t = 1) ∧
      mapLookup (selectCycleN target uc numTiles m g.indices.length).2 col = some g ∧
      (∀ c', c' ≠ col →
        mapLookup (selectCycleN target uc numTiles m g.indices.length).2 c' =
          mapLookup m c') ∧
      ∀ i ≤ g.indices.length,
        mapLookup (selectCycleN target uc numTiles m i).2 col =
          some ⟨g.indices, (g.nextIdx + i) % g.indices.length⟩ := by
  have hne : g.indices ≠ [] := by
    intro h
    rw [h] at hcur
    simp at hcur
  obtain ⟨idxs, j⟩ := g
  simp only at hcur hne ⊢
  have hfull := groupSelectN_full idxs j hcur
  have hrun := selectCycleN_run target col uc numTiles hres idxs.length m ⟨idxs, j⟩ hlook hne
  refine ⟨?_, ?_, ?_, ?_, ?_⟩
  · rw [hrun.1, hfull]
  · intro hnd t ht
    rw [hrun.1, hfull]
    have hperm : (idxs.rotate j).Perm idxs := List.rotate_perm idxs j
    rw [hperm.count_eq]
    exact List.count_eq_one_of_mem hnd ht
  · rw [hrun.2.1, hfull]
  · exact hrun.2.2
  · intro i hi
    have hruni := selectCycleN_run target col uc numTiles hres i m ⟨idxs, j⟩ hlook hne
    rw [hruni.2.1, groupSelectN_cursor idxs j i hcur hi]

/-- Witness data: a two-tile color group and a singleton group. -/
def wMap : CycleMap :=
  [((5, 5, 5), ⟨[0, 2], 0⟩), ((9, 9, 9), ⟨[1], 0⟩)]

theorem cycling_round_robin_witness :
    (([(5, 5, 5), (9, 9, 9)] : List Color).getD
        (kdQuery [(5, 5, 5), (9, 9, 9)] (5, 5, 5)) (0, 0, 0) = (5, 5, 5) ∧
      mapLookup wMap (5, 5, 5) = some ⟨[0, 2], 0⟩ ∧
      (⟨[0, 2], 0⟩ : CycleGroup).nextIdx < (⟨[0, 2], 0⟩ : CycleGroup).indices.length) ∧
      ((selectCycleN (5, 5, 5) [(5, 5, 5), (9, 9, 9)] 3 wMap
            (⟨[0, 2], 0⟩ : CycleGroup).indices.length).1 =
          (⟨[0, 2], 0⟩ : CycleGroup).indices.rotate (⟨[0, 2], 0⟩ : CycleGroup).nextIdx ∧
        ((⟨[0, 2], 0⟩ : CycleGroup).indices.Nodup →
          ∀ t ∈ (⟨[0, 2], 0⟩ : CycleGroup).indices,
            (selectCycleN (5, 5, 5) [(5, 5, 5), (9, 9, 9)] 3 wMap
              (⟨[0, 2], 0⟩ : CycleGroup).indices.length).1.count t = 1) ∧
        mapLookup (selectCycleN (5, 5, 5) [(5, 5, 5), (9, 9, 9)] 3 wMap
            (⟨[0, 2], 0⟩ : CycleGroup).indices.length).2 (5, 5, 5) =
          some ⟨[0, 2], 0⟩ ∧
        (∀ c', c' ≠ ((5, 5, 5) : Color) →
          mapLookup (selectCycleN (5, 5, 5) [(5, 5, 5), (9, 9, 9)] 3 wMap
              (⟨[0, 2], 0⟩ : CycleGroup).indices.length).2 c' = mapLookup wMap c') ∧
        ∀ i ≤ (⟨[0, 2], 0⟩ : CycleGroup).indices.length,
          mapLookup (selectCycleN (5, 5, 5) [(5, 5, 5), (9, 9, 9)] 3 wMap i).2 (5, 5, 5) =
            some ⟨(⟨[0, 2], 0⟩ : CycleGroup).indices,
              ((⟨[0, 2], 0⟩ : CycleGroup).nextIdx + i) %
                (⟨[0, 2], 0⟩ : CycleGroup).indices.length⟩) :=
  ⟨⟨by decide, by decide, by decide⟩,
    cycling_round_robin (5, 5, 5) (5, 5, 5) [(5, 5, 5), (9, 9, 9)] 3 wMap ⟨[0, 2], 0⟩
      (by decide) (by decide) (by decide)⟩

/-- C9: when the KDTree query raises and at least one tile is loaded, the
cycling selector's fallback path returns a tile index, the first tile of the
first color group when that exists and otherwise the very first loaded tile
(index 0), and returns the map unchanged, so no group's rotation cursor
advances. -/
theorem cycling_fallback_frame (uc : List Color) (numTiles : Nat) (m : CycleMap)
    (hnt : numTiles ≠ 0) :
    find_best_match_tile none uc numTiles m = Except.ok (fallbackIdx uc m, m) ∧
      (∀ c, mapLookup
          (match find_best_match_tile none uc numTiles m with
            | Except.ok p => p.2
            | Except.error _ => m) c = mapLookup m c) ∧
      (∀ k rest g i tl, uc = k :: rest → mapLookup m k = some g → g.indices = i :: tl →
        fallbackIdx uc m = i) ∧
      (uc = [] → fallbackIdx uc m = 0) := by
  refine ⟨by simp [find_best_match_tile, hnt], ?_, ?_, ?_⟩
  · intro c
    simp [find_best_match_tile, hnt]
  · intro k rest g i tl huc hlk hidx
    subst huc
    simp [fallbackIdx, hlk, hidx]
  · intro huc
    subst huc
    rfl

theorem cycling_fallback_frame_witness :
    (3 : Nat) ≠ 0 ∧
      (find_best_match_tile none [(5, 5, 5), (9, 9, 9)] 3 wMap =
          Except.ok (fallbackIdx [(5, 5, 5), (9, 9, 9)] wMap, wMap) ∧
        (∀ c, mapLookup
            (match find_best_match_tile none [(5, 5, 5), (9, 9, 9)] 3 wMap with
              | Except.ok p => p.2
              | Except.error _ => wMap) c = mapLookup wMap c) ∧
        (∀ k rest g i tl, ([(5, 5, 5), (9, 9, 9)] : List Color) = k :: rest →
          mapLookup wMap k = some g → g.indices = i :: tl →
          fallbackIdx [(5, 5, 5), (9, 9, 9)] wMap = i) ∧
        (([(5, 5, 5), (9, 9, 9)] : List Color) = [] →
          fallbackIdx [(5, 5, 5), (9, 9, 9)] wMap = 0)) :=
  ⟨by decide, cycling_fallback_frame [(5, 5, 5), (9, 9, 9)] 3 wMap (by decide)⟩

/-- Modelled from the spec: `PIL.Image.resize` with the LANCZOS filter
(external library). Only the output dimensions are relied on by the claims;
pixel content is modelled by nearest-neighbour sampling. -/
def imageResize (img : Img) (w h : Nat) : Img :=
  ⟨w, h, fun x y => img.px (x * img.width / w) (y * img.height / h)⟩

/-- A candidate file of a tile source: its name (a Python string, modelled
as its character sequence) and the result of `Image.open(...).convert('RGB')`
(`none` models a raised decode error). -/
structure FEntry where
  name : List Char
  decoded : Option Img

/-- A tile source as classified by `os.path.isdir` / `zipfile.is_zipfile`:
a readable directory, a valid zip archive, or neither. -/
inductive TileSource where
  | dir (entries : List FEntry)
  | zipArchive (entries : List FEntry)
  | invalid

/-- The image-extension allow-list of `load_tile_images`. -/
def IMAGE_EXTS : List (List Char) :=
  [".png".data, ".jpg".data, ".jpeg".data, ".bmp".data, ".gif".data, ".tiff".data]

/-- Candidate filter of `load_tile_images`:
`filename.lower().endswith((...))`, plus, for zip members, the exclusion of
names beginning with the macOS metadata marker. -/
def candidateOk (skipMac : Bool) (e : FEntry) : Bool :=
  IMAGE_EXTS.any (fun ext => List.isSuffixOf ext (e.name.map Char.toLower)) &&
    (!skipMac || !(List.isPrefixOf "__MACOSX".data e.name))

/-- The per-entry loop body of `load_tile_images`: filter by extension,
decode (skipping, with a logged warning, entries whose decode raises), resize
to `tile_size`, and record the resized tile with its average color. -/
def processEntries (skipMac : Bool) (ts : Nat × Nat) : List FEntry → List (Img × Color)
  | [] => []
  | e :: rest =>
    if candidateOk skipMac e then
      match e.decoded with
      | some img =>
        let r := imageResize img ts.1 ts.2
        (r, get_average_rgb r) :: processEntries skipMac ts rest
      | none => processEntries skipMac ts rest
    else processEntries skipMac ts rest

/-- The two fatal errors of `load_tile_images` (both raised as `ValueError`
in the source; the spec names them InvalidSourceError and EmptyTileSetError). -/
inductive LoadErr where
  | invalidSource
  | emptyTileSet
deriving DecidableEq

/-- `load_tile_images`: returns the parallel lists of resized tiles and
their average colors, or fails on an invalid source or an empty surviving
tile set. -/
def load_tile_images (src : TileSource) (ts : Nat × Nat) :
    Except LoadErr (List Img × List Color) :=
  match src with
  | TileSource.dir es =>
    let ps := processEntries false ts es
    if ps.isEmpty then Except.error LoadErr.emptyTileSet
    else Except.ok (ps.map Prod.fst, ps.map Prod.snd)
  | TileSource.zipArchive es =>
    let ps := processEntries true ts es
    if ps.isEmpty then Except.error LoadErr.emptyTileSet
    else Except.ok (ps.map Prod.fst, ps.map Prod.snd)
  | TileSource.invalid => Except.error LoadErr.invalidSource

theorem processEntries_empty_iff (skipMac : Bool) (ts : Nat × Nat) (es : List FEntry) :
    processEntries skipMac ts es = [] ↔
      ∀ e ∈ es, candidateOk skipMac e = false ∨ e.decoded = none := by
  induction es with
  | nil => simp [processEntries]
  | cons e rest ih =>
    by_cases hc : candidateOk skipMac e
    · cases hd : e.decoded with
      | some img =>
        simp [processEntries, hc, hd]
      | none =>
        simp only [processEntries, hc, if_true, hd]
        rw [ih]
        constructor
        · intro h
          intro e' he'
          rcases List.mem_cons.mp he' with rfl | he'
          · right
            exact hd
          · exact h e' he'
        · intro h e' he'
          exact h e' (List.mem_cons.mpr (Or.inr he'))
    · have hc' : candidateOk skipMac e = false := by simpa using hc
      simp only [processEntries, hc', Bool.false_eq_true, if_false]
      rw [ih]
      constructor
      · intro h e' he'
        rcases List.mem_cons.mp he' with rfl | he'
        · left
          exact hc'
        · exact h e' he'
      · intro h e' he'
        exact h e' (List.mem_cons.mpr (Or.inr he'))

/-- C7: `load_tile_images` fails with the invalid-source error exactly on a
source that is neither a directory nor a valid archive; on a valid source it
fails with the empty-tile-set error exactly when every candidate entry is
filtered out or fails to decode (single decode failures are skipped, never
fatal); and whenever at least one candidate survives, it succeeds and
returns a non-empty tile list. -/
theorem load_error_taxonomy (ts : Nat × Nat) (es : List FEntry) :
    (load_tile_images TileSource.invalid ts = Except.error LoadErr.invalidSource) ∧
      (∀ skipMac : Bool,
        load_tile_images (if skipMac then TileSource.zipArchive es else TileSource.dir es) ts ≠
          Except.error LoadErr.invalidSource) ∧
      (load_tile_images (TileSource.dir es) ts = Except.error LoadErr.emptyTileSet ↔
        ∀ e ∈ es, candidateOk false e = false ∨ e.decoded = none) ∧
      (load_tile_images (TileSource.zipArchive es) ts = Except.error LoadErr.emptyTileSet ↔
        ∀ e ∈ es, candidateOk true e = false ∨ e.decoded = none) ∧
      (∀ skipMac : Bool, (∃ e ∈ es, candidateOk skipMac e = true ∧ e.decoded ≠ none) →
        ∃ tiles colors,
          load_tile_images (if skipMac then TileSource.zipArchive es else TileSource.dir es) ts =
              Except.ok (tiles, colors) ∧
            tiles ≠ []) := by
  have hkey : ∀ skipMac, (∃ e ∈ es, candidateOk skipMac e = true ∧ e.decoded ≠ none) →
      processEntries skipMac ts es ≠ [] := by
    intro skipMac hex hemp
    obtain ⟨e, he, hc, hd⟩ := hex
    rcases (processEntries_empty_iff skipMac ts es).mp hemp e he with h | h
    · rw [hc] at h
      exact Bool.noConfusion h
    · exact hd h
  refine ⟨rfl, ?_, ?_, ?_, ?_⟩
  · intro skipMac
    cases skipMac
    · by_cases hp : (processEntries false ts es).isEmpty <;>
        simp [load_tile_images, hp]
    · by_cases hp : (processEntries true ts es).isEmpty <;>
        simp [load_tile_images, hp]
  · constructor
    · intro h
      rw [← processEntries_empty_iff false ts]
      by_cases hp : processEntries false ts es = []
      · exact hp
      · simp [load_tile_images, List.isEmpty_iff, hp] at h
    · intro h
      have hp := (processEntries_empty_iff false ts es).mpr h
      simp [load_tile_images, List.isEmpty_iff, hp]
  · constructor
    · intro h
      rw [← processEntries_empty_iff true ts]
      by_cases hp : processEntries true ts es = []
      · exact hp
      · simp [load_tile_images, List.isEmpty_iff, hp] at h
    · intro h
      have hp := (processEntries_empty_iff true ts es).mpr h
      simp [load_tile_images, List.isEmpty_iff, hp]
  · intro skipMac hex
    have hne := hkey skipMac hex
    cases skipMac
    · refine ⟨(processEntries false ts es).map Prod.fst,
        (processEntries false ts es).map Prod.snd, ?_, ?_⟩
      · simp [load_tile_images, List.isEmpty_iff, hne]
      · simpa using hne
    · refine ⟨(processEntries true ts es).map Prod.fst,
        (processEntries true ts es).map Prod.snd, ?_, ?_⟩
      · simp [load_tile_images, List.isEmpty_iff, hne]
      · simpa using hne

/-- A 1×1 decoded test image. -/
def testImg : Img := ⟨1, 1, fun _ _ => (3, 4, 5)⟩

theorem load_error_taxonomy_witness :
    load_tile_images TileSource.invalid (2, 2) = Except.error LoadErr.invalidSource ∧
      (∀ skipMac : Bool,
        load_tile_images
            (if skipMac then TileSource.zipArchive [⟨"a.png".data, some testImg⟩]
              else TileSource.dir [⟨"a.png".data, some testImg⟩]) (2, 2) ≠
          Except.error LoadErr.invalidSource) ∧
      (load_tile_images (TileSource.dir [⟨"a.png".data, some testImg⟩]) (2, 2) =
          Except.error LoadErr.emptyTileSet ↔
        ∀ e ∈ [(⟨"a.png".data, some testImg⟩ : FEntry)],
          candidateOk false e = false ∨ e.decoded = none) ∧
      (load_tile_images (TileSource.zipArchive [⟨"a.png".data, some testImg⟩]) (2, 2) =
          Except.error LoadErr.emptyTileSet ↔
        ∀ e ∈ [(⟨"a.png".data, some testImg⟩ : FEntry)],
          candidateOk true e = false ∨ e.decoded = none) ∧
      (∀ skipMac : Bool, (∃ e ∈ [(⟨"a.png".data, some testImg⟩ : FEntry)],
          candidateOk skipMac e = true ∧ e.decoded ≠ none) →
        ∃ tiles colors,
          load_tile_images
              (if skipMac then TileSource.zipArchive [⟨"a.png".data, some testImg⟩]
                else TileSource.dir [⟨"a.png".data, some testImg⟩]) (2, 2) =
              Except.ok (tiles, colors) ∧
            tiles ≠ []) :=
  load_error_taxonomy (2, 2) [⟨"a.png".data, some testImg⟩]

/-- One step of the grouping loop of `generate_mosaic` (cycling script,
lines 231-237): append load index `i` to the group of color `c`, creating the
group (with cursor 0) on first occurrence. -/
def insertIdx (m : CycleMap) (c : Color) (i : Nat) : CycleMap :=
  match m with
  | [] => [(c, ⟨[i], 0⟩)]
  | (k, g) :: rest =>
    if k = c then (k, ⟨g.indices ++ [i], g.nextIdx⟩) :: rest
    else (k, g) :: insertIdx rest c i

def buildGroupsAux : List Color → Nat → CycleMap → CycleMap
  | [], _, m => m
  | c :: cs, i, m => buildGroupsAux cs (i + 1) (insertIdx m c i)

/-- The `color_to_indices_map` built by enumerating the average colors. -/
def buildGroups (colors : List Color) : CycleMap :=
  buildGroupsAux colors 0 []

/-- All tile indices stored in the groups of a map, in map order. -/
def mapIndices (m : CycleMap) : List Nat :=
  m.flatMap fun p => p.2.indices

theorem insertIdx_flat (m : CycleMap) (c : Color) (i : Nat) :
    (mapIndices (insertIdx m c i)).Perm (mapIndices m ++ [i]) := by
  induction m with
  | nil => simp [mapIndices, insertIdx]
  | cons p rest ih =>
    obtain ⟨k, g⟩ := p
    by_cases hk : k = c
    · simp only [mapIndices, insertIdx, hk, if_true, List.flatMap_cons]
      rw [List.append_assoc, List.append_assoc]
      exact List.Perm.append_left _ List.perm_append_comm
    · simp only [mapIndices, insertIdx, hk, if_false, List.flatMap_cons]
      rw [List.append_assoc]
      exact List.Perm.append_left _ ih

theorem buildGroupsAux_flat (cs : List Color) (i : Nat) (m : CycleMap) :
    (mapIndices (buildGroupsAux cs i m)).Perm (mapIndices m ++ List.range' i cs.length) := by
  induction cs generalizing i m with
  | nil => simp [buildGroupsAux]
  | cons c cs ih =>
    simp only [buildGroupsAux, List.length_cons, List.range']
    have h1 := ih (i + 1) (insertIdx m c i)
    have h2 := List.Perm.append_right (List.range' (i + 1) cs.length) (insertIdx_flat m c i)
    have h3 := h1.trans h2
    have h4 : (mapIndices m ++ [i]) ++ List.range' (i + 1) cs.length =
        mapIndices m ++ (i :: List.range' (i + 1) cs.length) := by
      rw [List.append_assoc]
      rfl
    rw [h4] at h3
    exact h3

theorem buildGroups_partition (colors : List Color) :
    (mapIndices (buildGroups colors)).Perm (List.range colors.length) := by
  have h := buildGroupsAux_flat colors 0 []
  simpa [buildGroups, mapIndices, List.range_eq_range'] using h

/-- Bound and order invariant for the grouping maps: every stored index is
below `b` and every group's index list is strictly increasing. -/
def GroupsBnd (m : CycleMap) (b : Nat) : Prop :=
  ∀ p ∈ m, (∀ j ∈ p.2.indices, j < b) ∧ List.Pairwise (· < ·) p.2.indices

theorem insertIdx_bnd (m : CycleMap) (c : Color) (i : Nat) (h : GroupsBnd m i) :
    GroupsBnd (insertIdx m c i) (i + 1) := by
  induction m with
  | nil =>
    intro p hp
    simp only [insertIdx, List.mem_singleton] at hp
    subst hp
    exact ⟨by simp, by simp⟩
  | cons q rest ih =>
    obtain ⟨k, g⟩ := q
    have hq := h (k, g) (List.mem_cons_self _ _)
    by_cases hk : k = c
    · intro p hp
      simp only [insertIdx, hk, if_true, List.mem_cons] at hp
      rcases hp with rfl | hp
      · constructor
        · intro j hj
          rcases List.mem_append.mp hj with hj | hj
          · exact lt_trans (hq.1 j hj) (Nat.lt_succ_self i)
          · simp only [List.mem_singleton] at hj
            omega
        · rw [List.pairwise_append]
          refine ⟨hq.2, List.pairwise_singleton _ _, ?_⟩
          intro a ha b hb
          simp only [List.mem_singleton] at hb
          subst hb
          exact hq.1 a ha
      · have := h p (List.mem_cons_of_mem _ hp)
        exact ⟨fun j hj => lt_trans (this.1 j hj) (Nat.lt_succ_self i), this.2⟩
    · intro p hp
      simp only [insertIdx, hk, if_false, List.mem_cons] at hp
      rcases hp with rfl | hp
      · exact ⟨fun j hj => lt_trans (hq.1 j hj) (Nat.lt_succ_self i), hq.2⟩
      · exact ih (fun r hr => h r (List.mem_cons_of_mem _ hr)) p hp

theorem buildGroupsAux_bnd (cs : List Color) (i : Nat) (m : CycleMap)
    (h : GroupsBnd m i) : GroupsBnd (buildGroupsAux cs i m) (i + cs.length) := by
  induction cs generalizing i m with
  | nil => simpa [buildGroupsAux] using h
  | cons c cs ih =>
    simp only [buildGroupsAux, List.length_cons]
    have := ih (i + 1) (insertIdx m c i) (insertIdx_bnd m c i h)
    simpa [show i + 1 + cs.length = i + (cs.length + 1) from by omega] using this

theorem buildGroups_sorted (colors : List Color) (p : Color × CycleGroup)
    (hp : p ∈ buildGroups colors) : List.Pairwise (· < ·) p.2.indices := by
  have h := buildGroupsAux_bnd colors 0 [] (by intro q hq; simp at hq)
  exact (h p hp).2

theorem processEntries_facts (skipMac : Bool) (ts : Nat × Nat) (es : List FEntry) :
    ∀ p ∈ processEntries skipMac ts es,
      p.2 = get_average_rgb p.1 ∧ p.1.width = ts.1 ∧ p.1.height = ts.2 := by
  induction es with
  | nil => simp [processEntries]
  | cons e rest ih =>
    intro p hp
    by_cases hc : candidateOk skipMac e
    · cases hd : e.decoded with
      | some img =>
        simp only [processEntries, hc, if_true, hd, List.mem_cons] at hp
        rcases hp with rfl | hp
        · exact ⟨rfl, rfl, rfl⟩
        · exact ih p hp
      | none =>
        simp only [processEntries, hc, if_true, hd] at hp
        exact ih p hp
    · have hc' : candidateOk skipMac e = false := by simpa using hc
      simp only [processEntries, hc', Bool.false_eq_true, if_false] at hp
      exact ih p hp

theorem load_ok_characterization (src : TileSource) (ts : Nat × Nat)
    (tiles : List Img) (colors : List Color)
    (h : load_tile_images src ts = Except.ok (tiles, colors)) :
    ∃ ps : List (Img × Color), ps ≠ [] ∧ tiles = ps.map Prod.fst ∧
      colors = ps.map Prod.snd ∧
      ∀ p ∈ ps, p.2 = get_average_rgb p.1 ∧ p.1.width = ts.1 ∧ p.1.height = ts.2 := by
  cases src with
  | dir es =>
    by_cases hp : (processEntries false ts es).isEmpty
    · simp [load_tile_images, hp] at h
    · simp only [load_tile_images, hp, Bool.false_eq_true, if_false, Except.ok.injEq,
        Prod.mk.injEq] at h
      exact ⟨processEntries false ts es, by simpa [List.isEmpty_iff] using hp,
        h.1.symm, h.2.symm, processEntries_facts false ts es⟩
  | zipArchive es =>
    by_cases hp : (processEntries true ts es).isEmpty
    · simp [load_tile_images, hp] at h
    · simp only [load_tile_images, hp, Bool.false_eq_true, if_false, Except.ok.injEq,
        Prod.mk.injEq] at h
      exact ⟨processEntries true ts es, by simpa [List.isEmpty_iff] using hp,
        h.1.symm, h.2.symm, processEntries_facts true ts es⟩
  | invalid => simp [load_tile_images] at h

/-- C10: a successful `load_tile_images` returns parallel lists: as many
average colors as tiles and at least one tile, the `i`-th color is
`get_average_rgb` of the `i`-th tile, every tile is resized to exactly the
requested tile dimensions, and the cycling script's color grouping of the
returned colors partitions the load-index set `{0, ..., n-1}` (each index in
exactly one group, counted once) with every group's index list strictly
increasing, i.e. in load order. -/
theorem load_invariants_and_grouping (src : TileSource) (ts : Nat × Nat)
    (tiles : List Img) (colors : List Color)
    (h : load_tile_images src ts = Except.ok (tiles, colors)) :
    tiles.length = colors.length ∧ 1 ≤ tiles.length ∧
      (∀ i < tiles.length,
        colors.getD i (0, 0, 0) = get_average_rgb (tiles.getD i dImg)) ∧
      (∀ img ∈ tiles, img.width = ts.1 ∧ img.height = ts.2) ∧
      (mapIndices (buildGroups colors)).Perm (List.range colors.length) ∧
      (∀ t < colors.length, (mapIndices (buildGroups colors)).count t = 1) ∧
      ∀ p ∈ buildGroups colors, List.Pairwise (· < ·) p.2.indices := by
  obtain ⟨ps, hne, htiles, hcolors, hfacts⟩ := load_ok_characterization src ts tiles colors h
  subst htiles hcolors
  have hperm := buildGroups_partition (ps.map Prod.snd)
  refine ⟨by simp, ?_, ?_, ?_, hperm, ?_, buildGroups_sorted (ps.map Prod.snd)⟩
  · simpa [Nat.one_le_iff_ne_zero] using hne
  · intro i hi
    simp only [List.length_map] at hi
    rw [List.getD_eq_getElem _ _ (by simpa using hi), List.getD_eq_getElem _ _ (by simpa using hi)]
    simp only [List.getElem_map]
    exact (hfacts ps[i] (List.getElem_mem hi)).1
  · intro img himg
    obtain ⟨p, hp, rfl⟩ := List.mem_map.mp himg
    exact (hfacts p hp).2
  · intro t ht
    rw [hperm.count_eq]
    simp only [List.length_map] at ht
    rw [List.count_eq_one_of_mem (List.nodup_range _) (by simpa using ht)]

theorem load_invariants_and_grouping_witness :
    load_tile_images (TileSource.dir [⟨"a.png".data, some testImg⟩]) (2, 2) =
        Except.ok ([imageResize testImg 2 2],
          [get_average_rgb (imageResize testImg 2 2)]) ∧
      ([imageResize testImg 2 2].length =
          [get_average_rgb (imageResize testImg 2 2)].length ∧
        1 ≤ [imageResize testImg 2 2].length ∧
        (∀ i < [imageResize testImg 2 2].length,
          [get_average_rgb (imageResize testImg 2 2)].getD i (0, 0, 0) =
            get_average_rgb ([imageResize testImg 2 2].getD i dImg)) ∧
        (∀ img ∈ [imageResize testImg 2 2], img.width = 2 ∧ img.height = 2) ∧
        (mapIndices (buildGroups [get_average_rgb (imageResize testImg 2 2)])).Perm
          (List.range [get_average_rgb (imageResize testImg 2 2)].length) ∧
        (∀ t < [get_average_rgb (imageResize testImg 2 2)].length,
          (mapIndices (buildGroups [get_average_rgb (imageResize testImg 2 2)])).count t = 1) ∧
        ∀ p ∈ buildGroups [get_average_rgb (imageResize testImg 2 2)],
          List.Pairwise (· < ·) p.2.indices) := by
  have hload : load_tile_images (TileSource.dir [⟨"a.png".data, some testImg⟩]) (2, 2) =
      Except.ok ([imageResize testImg 2 2],
        [get_average_rgb (imageResize testImg 2 2)]) := by
    rfl
  exact ⟨hload, load_invariants_and_grouping (TileSource.dir [⟨"a.png".data, some testImg⟩])
    (2, 2) _ _ hload⟩

/-- `Image.new('RGB', (w, h))`: a blank (black) canvas. -/
def imageNew (w h : Nat) : Img := ⟨w, h, fun _ _ => (0, 0, 0)⟩

/-- `canvas.paste(tile, (px, py))`: hard replacement of the rectangle of the
tile's dimensions at offset `(px, py)`; pixels outside it are unchanged. -/
def pasteTile (canvas tile : Img) (px py : Nat) : Img :=
  ⟨canvas.width, canvas.height, fun x y =>
    if px ≤ x ∧ x < px + tile.width ∧ py ≤ y ∧ y < py + tile.height then
      tile.px (x - px) (y - py)
    else canvas.px x y⟩

/-- The row-major cell sequence of the nested assembly loops
(`for r in range(grid_h): for c in range(grid_w)`): the `k`-th processed
cell is `(k / grid_w, k mod grid_w)`. -/
def cellsRowMajor (gh gw : Nat) : List (Nat × Nat) :=
  (List.range (gh * gw)).map fun k => (k / gw, k % gw)

/-- The assembly loop body over a list of cells: at each cell, run the
(possibly stateful) tile selector `step`, then paste the selected tile at
pixel offset `(c·tile_w, r·tile_h)`. -/
def assembleFold {σ : Type} (tw th : Nat) (step : σ → Nat → Nat → Img × σ) :
    List (Nat × Nat) → Img × σ → Img × σ
  | [], acc => acc
  | rc :: rest, acc =>
    let p := step acc.2 rc.1 rc.2
    assembleFold tw th step rest (pasteTile acc.1 p.1 (rc.2 * tw) (rc.1 * th), p.2)

/-- Steps 5-6 of `generate_mosaic`: allocate the canvas of size
`(grid_w·tile_w, grid_h·tile_h)` and paint one selected tile per cell in
row-major order. The selector `step` abstracts `find_best_match_tile`
(stateless in the by-tile script, map-threading in the cycling script). -/
def generate_mosaic_assemble {σ : Type} (gw gh tw th : Nat)
    (step : σ → Nat → Nat → Img × σ) (s0 : σ) : Img × σ :=
  assembleFold tw th step (cellsRowMajor gh gw) (imageNew (gw * tw) (gh * th), s0)

/-- Selector-state evolution alone, over a list of cells. -/
def stateFold {σ : Type} (step : σ → Nat → Nat → Img × σ) :
    List (Nat × Nat) → σ → σ
  | [], s => s
  | rc :: rest, s => stateFold step rest (step s rc.1 rc.2).2

/-- The tile the assembly pastes at cell `(r, c)`: the selector's output in
the state reached after processing the `r·grid_w + c` earlier cells. -/
def tileForCell {σ : Type} (gw gh : Nat) (step : σ → Nat → Nat → Img × σ)
    (s0 : σ) (r c : Nat) : Img :=
  (step (stateFold step ((cellsRowMajor gh gw).take (r * gw + c)) s0) r c).1

/-- The pixel region of cell `(r, c)`. -/
def inRegion (tw th r c x y : Nat) : Prop :=
  c * tw ≤ x ∧ x < c * tw + tw ∧ r * th ≤ y ∧ y < r * th + th

theorem region_iff (tw x c : Nat) (htw : 0 < tw) :
    (c * tw ≤ x ∧ x < c * tw + tw) ↔ x / tw = c := by
  constructor
  · intro ⟨h1, h2⟩
    have := Nat.div_add_mod x tw
    have hmod := Nat.mod_lt x htw
    have hle : c ≤ x / tw := by
      rw [Nat.le_div_iff_mul_le htw]
      exact h1
    have hlt : x / tw < c + 1 := by
      rw [Nat.div_lt_iff_lt_mul htw]
      calc x < c * tw + tw := h2
        _ = (c + 1) * tw := by ring
    omega
  · intro h
    subst h
    constructor
    · exact Nat.div_mul_le_self x tw
    · have := (Nat.div_lt_iff_lt_mul htw).mp (Nat.lt_succ_self (x / tw))
      calc x < (x / tw + 1) * tw := this
        _ = x / tw * tw + tw := by ring

theorem assembleFold_dims {σ : Type} (tw th : Nat) (step : σ → Nat → Nat → Img × σ)
    (L : List (Nat × Nat)) (acc : Img × σ) :
    (assembleFold tw th step L acc).1.width = acc.1.width ∧
      (assembleFold tw th step L acc).1.height = acc.1.height := by
  induction L generalizing acc with
  | nil => exact ⟨rfl, rfl⟩
  | cons rc rest ih => exact ih _

theorem assembleFold_px_skip {σ : Type} (tw th : Nat) (htw : 0 < tw) (hth : 0 < th)
    (step : σ → Nat → Nat → Img × σ)
    (hdims : ∀ s r c, (step s r c).1.width = tw ∧ (step s r c).1.height = th)
    (x y : Nat) (L : List (Nat × Nat)) (hL : (y / th, x / tw) ∉ L) :
    ∀ (canvas : Img) (s : σ),
      (assembleFold tw th step L (canvas, s)).1.px x y = canvas.px x y := by
  induction L with
  | nil => intro canvas s; rfl
  | cons rc rest ih =>
    intro canvas s
    obtain ⟨r, c⟩ := rc
    have hne : (y / th, x / tw) ≠ (r, c) := fun h => hL (h ▸ List.mem_cons_self _ _)
    have hrest : (y / th, x / tw) ∉ rest := fun h => hL (List.mem_cons_of_mem _ h)
    have hw := (hdims s r c).1
    have hh := (hdims s r c).2
    rw [assembleFold, ih hrest]
    simp only [pasteTile, hw, hh]
    rw [if_neg]
    intro ⟨h1, h2, h3, h4⟩
    have hc : x / tw = c := (region_iff tw x c htw).mp ⟨h1, h2⟩
    have hr : y / th = r := (region_iff th y r hth).mp ⟨h3, h4⟩
    exact hne (by rw [hc, hr])

theorem assembleFold_px_found {σ : Type} (tw th : Nat) (htw : 0 < tw) (hth : 0 < th)
    (step : σ → Nat → Nat → Img × σ)
    (hdims : ∀ s r c, (step s r c).1.width = tw ∧ (step s r c).1.height = th)
    (x y : Nat) (L1 L2 : List (Nat × Nat))
    (hL2 : (y / th, x / tw) ∉ L2) :
    ∀ (canvas : Img) (s : σ),
      (assembleFold tw th step (L1 ++ (y / th, x / tw) :: L2) (canvas, s)).1.px x y =
        (step (stateFold step L1 s) (y / th) (x / tw)).1.px (x % tw) (y % th) := by
  induction L1 with
  | nil =>
    intro canvas s
    simp only [List.nil_append, assembleFold, stateFold]
    rw [assembleFold_px_skip tw th htw hth step hdims x y L2 hL2]
    have hw := (hdims s (y / th) (x / tw)).1
    have hh := (hdims s (y / th) (x / tw)).2
    simp only [pasteTile, hw, hh]
    rw [if_pos]
    · congr 1
      · have h1 := Nat.div_add_mod x tw
        have h2 : x / tw * tw = tw * (x / tw) := Nat.mul_comm _ _
        omega
      · have h1 := Nat.div_add_mod y th
        have h2 : y / th * th = th * (y / th) := Nat.mul_comm _ _
        omega
    · exact ⟨((region_iff tw x (x / tw) htw).mpr rfl).1,
        ((region_iff tw x (x / tw) htw).mpr rfl).2,
        ((region_iff th y (y / th) hth).mpr rfl).1,
        ((region_iff th y (y / th) hth).mpr rfl).2⟩
  | cons rc rest ih =>
    intro canvas s
    simp only [List.cons_append, assembleFold, stateFold]
    exact ih _ _

theorem cellsRowMajor_length (gh gw : Nat) : (cellsRowMajor gh gw).length = gh * gw := by
  simp [cellsRowMajor]

theorem cellsRowMajor_getD (gh gw k : Nat) (hk : k < gh * gw) :
    (cellsRowMajor gh gw).getD k (0, 0) = (k / gw, k % gw) := by
  rw [List.getD_eq_getElem _ _ (by simpa [cellsRowMajor_length] using hk)]
  simp [cellsRowMajor]

theorem cellsRowMajor_nodup (gh gw : Nat) (hgw : 0 < gw) :
    (cellsRowMajor gh gw).Nodup := by
  apply List.Nodup.map
  · intro k1 k2 h
    have h1 : k1 / gw = k2 / gw := congrArg Prod.fst h
    have h2 : k1 % gw = k2 % gw := congrArg Prod.snd h
    have e1 := Nat.div_add_mod k1 gw
    have e2 := Nat.div_add_mod k2 gw
    have : gw * (k1 / gw) = gw * (k2 / gw) := by rw [h1]
    omega
  · exact List.nodup_range _

theorem cell_index_getElem (gh gw r c : Nat) (hr : r < gh) (hc : c < gw) :
    r * gw + c < gh * gw ∧
      (r * gw + c) / gw = r ∧ (r * gw + c) % gw = c := by
  have hgw : 0 < gw := by omega
  have hk : r * gw + c < gh * gw := by
    calc r * gw + c < r * gw + gw := by omega
      _ = (r + 1) * gw := by ring
      _ ≤ gh * gw := Nat.mul_le_mul_right gw (by omega)
  refine ⟨hk, ?_, ?_⟩
  · rw [show r * gw + c = gw * r + c from by ring, Nat.mul_add_div hgw,
      Nat.div_eq_of_lt hc]
    omega
  · rw [show r * gw + c = gw * r + c from by ring, Nat.mul_add_mod,
      Nat.mod_eq_of_lt hc]

/-- Pointwise description of the assembled mosaic: each in-bounds pixel holds
the corresponding pixel of the tile selected for its covering cell. -/
theorem assemble_px {σ : Type} (gw gh tw th : Nat) (htw : 0 < tw) (hth : 0 < th)
    (step : σ → Nat → Nat → Img × σ)
    (hdims : ∀ s r c, (step s r c).1.width = tw ∧ (step s r c).1.height = th)
    (s0 : σ) (x y : Nat) (hx : x < gw * tw) (hy : y < gh * th) :
    (generate_mosaic_assemble gw gh tw th step s0).1.px x y =
      (tileForCell gw gh step s0 (y / th) (x / tw)).px (x % tw) (y % th) := by
  have hr0 : y / th < gh := (Nat.div_lt_iff_lt_mul hth).mpr hy
  have hc0 : x / tw < gw := (Nat.div_lt_iff_lt_mul htw).mpr hx
  have hgw : 0 < gw := lt_of_le_of_lt (Nat.zero_le _) hc0
  obtain ⟨hk, hkdiv, hkmod⟩ := cell_index_getElem gh gw (y / th) (x / tw) hr0 hc0
  set k0 := (y / th) * gw + x / tw with hk0
  have hklen : k0 < (cellsRowMajor gh gw).length := by
    rw [cellsRowMajor_length]
    exact hk
  have hget : (cellsRowMajor gh gw)[k0] = (y / th, x / tw) := by
    rw [← List.getD_eq_getElem (cellsRowMajor gh gw) (0, 0) hklen,
      cellsRowMajor_getD gh gw k0 hk, hkdiv, hkmod]
  have hdecomp : cellsRowMajor gh gw =
      (cellsRowMajor gh gw).take k0 ++
        (y / th, x / tw) :: (cellsRowMajor gh gw).drop (k0 + 1) := by
    conv_lhs => rw [← List.take_append_drop k0 (cellsRowMajor gh gw)]
    rw [List.drop_eq_getElem_cons hklen, hget]
  have hnodrop : (y / th, x / tw) ∉ (cellsRowMajor gh gw).drop (k0 + 1) := by
    have hnd : ((cellsRowMajor gh gw).drop k0).Nodup :=
      (List.drop_sublist k0 _).nodup (cellsRowMajor_nodup gh gw hgw)
    rw [List.drop_eq_getElem_cons hklen, hget] at hnd
    exact (List.nodup_cons.mp hnd).1
  rw [generate_mosaic_assemble, hdecomp,
    assembleFold_px_found tw th htw hth step hdims x y _ _ hnodrop]
  rfl

/-- C1: for positive grid and tile dimensions and a selector producing tiles
of exactly the tile dimensions, the assembler allocates a canvas of exactly
`(grid_w·tile_w, grid_h·tile_h)`, visits each cell exactly once in row-major
order (the `r·grid_w + c`-th visited cell is `(r, c)`), paints cell `(r, c)`'s
selected tile at offset `(c·tile_w, r·tile_h)` with hard replacement (every
in-bounds pixel equals the selected tile's pixel at the cell-local offset),
and the cell regions are pairwise disjoint and together exactly cover the
canvas. -/
theorem mosaic_assembly_correct {σ : Type} (gw gh tw th : Nat)
    (step : σ → Nat → Nat → Img × σ) (s0 : σ)
    (htw : 0 < tw) (hth : 0 < th) (hgw : 0 < gw) (hgh : 0 < gh)
    (hdims : ∀ s r c, (step s r c).1.width = tw ∧ (step s r c).1.height = th) :
    ((generate_mosaic_assemble gw gh tw th step s0).1.width = gw * tw ∧
       (generate_mosaic_assemble gw gh tw th step s0).1.height = gh * th) ∧
      ((cellsRowMajor gh gw).length = gh * gw ∧ (cellsRowMajor gh gw).Nodup ∧
        ∀ r < gh, ∀ c < gw, (cellsRowMajor gh gw).getD (r * gw + c) (0, 0) = (r, c)) ∧
      (∀ x y, x < gw * tw → y < gh * th →
        (generate_mosaic_assemble gw gh tw th step s0).1.px x y =
          (tileForCell gw gh step s0 (y / th) (x / tw)).px (x % tw) (y % th)) ∧
      (∀ r1 c1 r2 c2 x y, (r1, c1) ≠ (r2, c2) →
        ¬(inRegion tw th r1 c1 x y ∧ inRegion tw th r2 c2 x y)) ∧
      (∀ x y, x < gw * tw → y < gh * th →
        ∃ r c, r < gh ∧ c < gw ∧ inRegion tw th r c x y) ∧
      ∀ r c x y, r < gh → c < gw → inRegion tw th r c x y →
        x < gw * tw ∧ y < gh * th := by
  refine ⟨⟨(assembleFold_dims tw th step _ _).1, (assembleFold_dims tw th step _ _).2⟩,
    ⟨cellsRowMajor_length gh gw, cellsRowMajor_nodup gh gw hgw, ?_⟩,
    fun x y hx hy => assemble_px gw gh tw th htw hth step hdims s0 x y hx hy,
    ?_, ?_, ?_⟩
  · intro r hr c hc
    obtain ⟨hk, hkdiv, hkmod⟩ := cell_index_getElem gh gw r c hr hc
    rw [cellsRowMajor_getD gh gw _ hk, hkdiv, hkmod]
  · intro r1 c1 r2 c2 x y hne ⟨h1, h2⟩
    obtain ⟨h1a, h1b, h1c, h1d⟩ := h1
    obtain ⟨h2a, h2b, h2c, h2d⟩ := h2
    have hc1 : x / tw = c1 := (region_iff tw x c1 htw).mp ⟨h1a, h1b⟩
    have hc2 : x / tw = c2 := (region_iff tw x c2 htw).mp ⟨h2a, h2b⟩
    have hr1 : y / th = r1 := (region_iff th y r1 hth).mp ⟨h1c, h1d⟩
    have hr2 : y / th = r2 := (region_iff th y r2 hth).mp ⟨h2c, h2d⟩
    exact hne (by rw [← hc1, ← hc2, ← hr1, ← hr2])
  · intro x y hx hy
    refine ⟨y / th, x / tw, (Nat.div_lt_iff_lt_mul hth).mpr hy,
      (Nat.div_lt_iff_lt_mul htw).mpr hx,
      ((region_iff tw x (x / tw) htw).mpr rfl).1,
      ((region_iff tw x (x / tw) htw).mpr rfl).2,
      ((region_iff th y (y / th) hth).mpr rfl).1,
      ((region_iff th y (y / th) hth).mpr rfl).2⟩
  · intro r c x y hr hc ⟨_, hb, _, hd⟩
    constructor
    · calc x < c * tw + tw := hb
        _ = (c + 1) * tw := by ring
        _ ≤ gw * tw := Nat.mul_le_mul_right tw (by omega)
    · calc y < r * th + th := hd
        _ = (r + 1) * th := by ring
        _ ≤ gh * th := Nat.mul_le_mul_right th (by omega)

/-- A constant 1×1 tile used in the assembly witness. -/
def wTile : Img := ⟨1, 1, fun _ _ => (1, 2, 3)⟩

theorem mosaic_assembly_correct_witness :
    (0 < 1 ∧
        ∀ (s : Unit) (r c : Nat),
          ((fun (_ : Unit) (_ _ : Nat) => (wTile, ())) s r c).1.width = 1 ∧
            ((fun (_ : Unit) (_ _ : Nat) => (wTile, ())) s r c).1.height = 1) ∧
      (((generate_mosaic_assemble 2 2 1 1 (fun _ _ _ => (wTile, ())) ()).1.width = 2 * 1 ∧
          (generate_mosaic_assemble 2 2 1 1 (fun _ _ _ => (wTile, ())) ()).1.height = 2 * 1) ∧
        ((cellsRowMajor 2 2).length = 2 * 2 ∧ (cellsRowMajor 2 2).Nodup ∧
          ∀ r < 2, ∀ c < 2, (cellsRowMajor 2 2).getD (r * 2 + c) (0, 0) = (r, c)) ∧
        (∀ x y, x < 2 * 1 → y < 2 * 1 →
          (generate_mosaic_assemble 2 2 1 1 (fun _ _ _ => (wTile, ())) ()).1.px x y =
            (tileForCell 2 2 (fun _ _ _ => (wTile, ())) () (y / 1) (x / 1)).px
              (x % 1) (y % 1)) ∧
        (∀ r1 c1 r2 c2 x y, (r1, c1) ≠ (r2, c2) →
          ¬(inRegion 1 1 r1 c1 x y ∧ inRegion 1 1 r2 c2 x y)) ∧
        (∀ x y, x < 2 * 1 → y < 2 * 1 →
          ∃ r c, r < 2 ∧ c < 2 ∧ inRegion 1 1 r c x y) ∧
        ∀ r c x y, r < 2 → c < 2 → inRegion 1 1 r c x y →
          x < 2 * 1 ∧ y < 2 * 1) :=
  ⟨⟨by decide, fun _ _ _ => ⟨rfl, rfl⟩⟩,
    mosaic_assembly_correct 2 2 1 1 (fun _ _ _ => (wTile, ())) () (by decide) (by decide)
      (by decide) (by decide) (fun _ _ _ => ⟨rfl, rfl⟩)⟩

/-- The by-tile selector as used by the assembly loop of
`generatePhotoMosaicByTile.py`: a pure function of the cell's sampled color,
returning the tile at the KDTree's best-match index; its render state is
trivial (`Unit`). `small c r` is `base_small_for_avg.getpixel((c, r))`. -/
def byTileStep (tiles : List Img) (avgColors : List Color)
    (small : Nat → Nat → Color) : Unit → Nat → Nat → Img × Unit :=
  fun _ r c => (tiles.getD (kdQuery avgColors (small c r)) dImg, ())

/-- The full by-tile mosaic render. -/
def generate_mosaic_bytile (gw gh tw th : Nat) (small : Nat → Nat → Color)
    (tiles : List Img) (avgColors : List Color) : Img :=
  (generate_mosaic_assemble gw gh tw th (byTileStep tiles avgColors small) ()).1

theorem byTileStep_dims (tiles : List Img) (avgColors : List Color)
    (small : Nat → Nat → Color) (tw th : Nat)
    (htiles : ∀ img ∈ tiles, img.width = tw ∧ img.height = th)
    (hlen : avgColors.length = tiles.length) (hne : avgColors ≠ []) :
    ∀ (s : Unit) (r c : Nat), ((byTileStep tiles avgColors small) s r c).1.width = tw ∧
      ((byTileStep tiles avgColors small) s r c).1.height = th := by
  intro s r c
  have hq : kdQuery avgColors (small c r) < tiles.length := by
    rw [← hlen]
    exact kdQuery_lt_length avgColors (small c r) hne
  have : (byTileStep tiles avgColors small s r c).1 =
      tiles[kdQuery avgColors (small c r)] := by
    show tiles.getD (kdQuery avgColors (small c r)) dImg = _
    rw [List.getD_eq_getElem _ _ hq]
  rw [this]
  exact htiles _ (List.getElem_mem hq)

/-- C8: the nearest-match selection is pure with respect to render state: the
tile assembled for a cell depends only on the cell's sampled color, so any
two cells (in any order, with any other selections in between) whose sampled
colors agree receive the identical tile, and with equal cell-local offsets
the assembled canvas holds equal pixels there. -/
theorem nearest_match_pure (gw gh tw th : Nat) (small : Nat → Nat → Color)
    (tiles : List Img) (avgColors : List Color) (x1 y1 x2 y2 : Nat)
    (htw : 0 < tw) (hth : 0 < th)
    (htiles : ∀ img ∈ tiles, img.width = tw ∧ img.height = th)
    (hlen : avgColors.length = tiles.length) (hne : avgColors ≠ [])
    (hx1 : x1 < gw * tw) (hy1 : y1 < gh * th)
    (hx2 : x2 < gw * tw) (hy2 : y2 < gh * th)
    (hcol : small (x1 / tw) (y1 / th) = small (x2 / tw) (y2 / th))
    (hox : x1 % tw = x2 % tw) (hoy : y1 % th = y2 % th) :
    tileForCell gw gh (byTileStep tiles avgColors small) () (y1 / th) (x1 / tw) =
        tileForCell gw gh (byTileStep tiles avgColors small) () (y2 / th) (x2 / tw) ∧
      (generate_mosaic_bytile gw gh tw th small tiles avgColors).px x1 y1 =
        (generate_mosaic_bytile gw gh tw th small tiles avgColors).px x2 y2 := by
  have htile : tileForCell gw gh (byTileStep tiles avgColors small) () (y1 / th) (x1 / tw) =
      tileForCell gw gh (byTileStep tiles avgColors small) () (y2 / th) (x2 / tw) := by
    show (byTileStep tiles avgColors small _ (y1 / th) (x1 / tw)).1 =
      (byTileStep tiles avgColors small _ (y2 / th) (x2 / tw)).1
    simp only [byTileStep]
    rw [hcol]
  refine ⟨htile, ?_⟩
  have hd := byTileStep_dims tiles avgColors small tw th htiles hlen hne
  rw [generate_mosaic_bytile,
    assemble_px gw gh tw th htw hth _ hd () x1 y1 hx1 hy1,
    assemble_px gw gh tw th htw hth _ hd () x2 y2 hx2 hy2,
    htile, hox, hoy]

/-- Witness data for the purity theorem: one 1×1 tile, one indexed color. -/
def wSmall : Nat → Nat → Color := fun _ _ => (0, 0, 0)

theorem nearest_match_pure_witness :
    (0 < 1 ∧ (∀ img ∈ [wTile], img.width = 1 ∧ img.height = 1) ∧
        ([(1, 2, 3)] : List Color).length = [wTile].length ∧
        ([(1, 2, 3)] : List Color) ≠ [] ∧
        0 < 2 * 1 ∧ 1 < 2 * 1 ∧
        wSmall (0 / 1) (0 / 1) = wSmall (1 / 1) (1 / 1) ∧
        0 % 1 = 1 % 1) ∧
      (tileForCell 2 2 (byTileStep [wTile] [(1, 2, 3)] wSmall) () (0 / 1) (0 / 1) =
          tileForCell 2 2 (byTileStep [wTile] [(1, 2, 3)] wSmall) () (1 / 1) (1 / 1) ∧
        (generate_mosaic_bytile 2 2 1 1 wSmall [wTile] [(1, 2, 3)]).px 0 0 =
          (generate_mosaic_bytile 2 2 1 1 wSmall [wTile] [(1, 2, 3)]).px 1 1) :=
  ⟨⟨by decide, by
      intro img himg
      simp only [List.mem_singleton] at himg
      subst himg
      exact ⟨rfl, rfl⟩, by decide, by decide, by decide, by decide, rfl, by decide⟩,
    nearest_match_pure 2 2 1 1 wSmall [wTile] [(1, 2, 3)] 0 0 1 1 (by decide) (by decide)
      (by
        intro img himg
        simp only [List.mem_singleton] at himg
        subst himg
        exact ⟨rfl, rfl⟩)
      (by decide) (by decide) (by decide) (by decide) (by decide) (by decide) rfl
      (by decide) (by decide)⟩

end Mosaic
